import Mathlib

/-!
Shallow embedding of the streak analytics of the HabitTracker repository
(`src/analytics/analytics.py` and `src/models/habit.py`), together with
theorems checking the specification's claims about them.

Modelling conventions:
* A Python `datetime` is modelled as an integer number of seconds (`Int`).
  `timedelta.days` is floor division of the difference by 86400, and
  `.date()` is floor division of the timestamp by 86400.
* A stored `completed_date` field is `TS`: either `missing` (SQL NULL /
  Python `None`), `malformed` (a non-null string `datetime.fromisoformat`
  rejects), or `valid t` (a parseable timestamp of `t` seconds).
* A Python function that can raise an uncaught exception is embedded as a
  function into `Option`, with `Option.none` standing for the exception.
-/

/-- A stored completion timestamp: missing (`None`), unparseable text, or a
valid datetime given as integer seconds. -/
inductive TS where
  | missing : TS
  | malformed : TS
  | valid : Int → TS
deriving DecidableEq

/-- Seconds in one day, the divisor behind `timedelta.days` and `.date()`. -/
def secondsPerDay : Int := 86400

/-- `(curr - prev).days` of a Python `timedelta`: floor division by 86400. -/
def daysDiff (curr prev : Int) : Int := (curr - prev).fdiv secondsPerDay

/-- `.date()` of a datetime, as a whole-day number. -/
def ticksToDay (t : Int) : Int := t.fdiv secondsPerDay

/-- Python `sorted` on a list of timestamps. -/
def sortInts (l : List Int) : List Int := l.insertionSort (· ≤ ·)

/-- Whether a stored timestamp parses successfully. -/
def isValid : TS → Bool
  | TS.valid _ => true
  | _ => false

/-- The timestamps of the entries that parse, in list order. -/
def validTicks (l : List TS) : List Int :=
  l.filterMap fun c =>
    match c with
    | TS.valid t => some t
    | _ => none

/-- The date-parsing comprehension of `get_longest_streak_for_habit`:
`None` entries are filtered out, a malformed entry raises (the surrounding
`try` turns that into `Option.none` here). -/
def parseDates : List TS → Option (List Int)
  | [] => some []
  | TS.missing :: t => parseDates t
  | TS.malformed :: _ => none
  | TS.valid d :: t => (parseDates t).map (d :: ·)

/-- The date-parsing comprehension of `get_all_streaks`'s inner
`calculate_streak`: every entry is parsed unconditionally, so a missing or
malformed entry raises an uncaught exception (`Option.none`). -/
def parseAllDates : List TS → Option (List Int)
  | [] => some []
  | TS.valid d :: t => (parseAllDates t).map (d :: ·)
  | _ :: _ => none

/-- The accumulator of `streak_reducer`: previous date, running streak and
maximum streak. -/
structure StreakAcc where
  prev : Int
  streak : Int
  maxS : Int
deriving DecidableEq

/-- `streak_reducer` of `get_longest_streak_for_habit`. -/
def streak_reducer (periodicity : Int) (acc : StreakAcc) (curr : Int) : StreakAcc :=
  let diff := daysDiff curr acc.prev
  if (periodicity = 1 ∧ diff = 1) ∨ (periodicity > 1 ∧ 1 ≤ diff ∧ diff ≤ periodicity) then
    ⟨curr, acc.streak + 1, max acc.maxS (acc.streak + 1)⟩
  else
    ⟨curr, 1, max acc.maxS acc.streak⟩

/-- `get_longest_streak_for_habit` of `analytics.py`, taking the habit's
completion rows and its periodicity.  `some 0` on an empty collection; the
date-parse failure path also returns `some 0`; the `dates[0]` access on an
empty parsed list raises `IndexError`, embedded as `Option.none`. -/
def get_longest_streak_for_habit (completions : List TS) (periodicity : Int) : Option Int :=
  if completions.isEmpty then some 0
  else
    match parseDates completions with
    | none => some 0
    | some ds =>
      let dates := sortInts ds
      if dates.length = 1 then some 1
      else
        match dates with
        | [] => none
        | d0 :: rest => some ((rest.foldl (streak_reducer periodicity) ⟨d0, 1, 1⟩).maxS)

/-- One loop iteration of `get_all_streaks`'s inner `calculate_streak`:
accumulator is (previous date, max streak, current streak). -/
def all_streaks_step (periodicity : Int) (acc : Int × Int × Int) (d : Int) : Int × Int × Int :=
  let diff := daysDiff d acc.1
  if 1 ≤ diff ∧ diff ≤ periodicity then (d, acc.2.1, acc.2.2 + 1)
  else (d, max acc.2.1 acc.2.2, 1)

namespace GetAllStreaks

/-- The inner `calculate_streak` of `get_all_streaks` in `analytics.py`. -/
def calculate_streak (completions : List TS) (periodicity : Int) : Option Int :=
  if completions.isEmpty then some 0
  else
    match parseAllDates completions with
    | none => none
    | some ds =>
      match sortInts ds with
      | [] => none
      | d0 :: rest =>
        let r := rest.foldl (all_streaks_step periodicity) (d0, 1, 1)
        some (max r.2.1 r.2.2)

end GetAllStreaks

/-- A habit row as the analytics code sees it: name, periodicity, and its
completion rows (the result of `db.get_completions` on its id). -/
structure HabitRec where
  name : String
  periodicity : Int
  completions : List TS
deriving DecidableEq

/-- `get_all_streaks` of `analytics.py`: `(name, streak)` pairs for every
habit, the streak coming from the inner `calculate_streak`. -/
def get_all_streaks : List HabitRec → Option (List (String × Int))
  | [] => some []
  | h :: t =>
    match GetAllStreaks.calculate_streak h.completions h.periodicity, get_all_streaks t with
    | some s, some l => some ((h.name, s) :: l)
    | _, _ => none

/-- The `(habit, streak)` pairs built by `get_longest_streak`'s `map`;
an exception in any per-habit streak computation propagates. -/
def streak_pairs : List HabitRec → Option (List (HabitRec × Int))
  | [] => some []
  | h :: t =>
    match get_longest_streak_for_habit h.completions h.periodicity, streak_pairs t with
    | some s, some l => some ((h, s) :: l)
    | _, _ => none

/-- One comparison of Python `max(..., key=lambda x: x[1])`: the current
maximum is replaced only when a later element is strictly greater. -/
def max_step (best y : HabitRec × Int) : HabitRec × Int :=
  if y.2 > best.2 then y else best

/-- Python `max(..., key=lambda x: x[1])` on a non-empty list: keeps the
current maximum unless a later element is strictly greater, so the first
maximal element wins. -/
def max_by_streak (x : HabitRec × Int) (xs : List (HabitRec × Int)) : HabitRec × Int :=
  xs.foldl max_step x

/-- `get_longest_streak` of `analytics.py`. -/
def get_longest_streak (habits : List HabitRec) : Option (Option HabitRec × Int) :=
  match habits with
  | [] => some (none, 0)
  | a :: as =>
    match get_longest_streak_for_habit a.completions a.periodicity, streak_pairs as with
    | some s, some l =>
      let m := max_by_streak (a, s) l
      some (some m.1, m.2)
    | _, _ => none

/-- `is_due_today` inside `get_habits_to_complete_today`, with the current
date passed explicitly as a whole-day number.  `fromisoformat` on a missing
or malformed stored date raises, embedded as `Option.none`. -/
def is_due_today (today periodicity : Int) (last_completion : Option TS) : Option Bool :=
  match last_completion with
  | none => some true
  | some (TS.valid t) => some (decide (periodicity ≤ today - ticksToDay t))
  | some _ => none

namespace Habit

/-- `Habit.calculate_streak` of `habit.py`: sorts the completion datetimes,
then keeps a single running streak that grows whenever the day difference is
at most the periodicity, and returns that final running streak. -/
def calculate_streak (periodicity : Int) (completions : List Int) : Int :=
  match sortInts completions with
  | [] => 0
  | d0 :: rest =>
    (rest.foldl
      (fun (acc : Int × Int) d =>
        if daysDiff d acc.1 ≤ periodicity then (d, acc.2 + 1) else (d, 1))
      (d0, 1)).2

end Habit

/-- Reference description of a trailing run: on the reversed sorted list,
count elements from the most recent one while each consecutive day
difference is at most the periodicity. -/
def trailingRun (periodicity : Int) : List Int → Int
  | [] => 0
  | [_] => 1
  | a :: b :: t => if daysDiff a b ≤ periodicity then 1 + trailingRun periodicity (b :: t) else 1

/-- Concrete habits used by closed instances below. -/
def habitA : HabitRec := ⟨"A", 1, [TS.valid 0]⟩

/-- A habit whose two completions are one day apart. -/
def habitB : HabitRec := ⟨"B", 1, [TS.valid 0, TS.valid 86400]⟩

example : get_longest_streak_for_habit [] 1 = some 0 := by decide
example : get_longest_streak_for_habit [TS.valid 0, TS.valid 86400] 1 = some 2 := by decide
example : get_longest_streak_for_habit [TS.valid 0, TS.malformed] 1 = some 0 := by decide
example : get_longest_streak_for_habit [TS.missing] 1 = none := by decide
example : GetAllStreaks.calculate_streak [TS.valid 0, TS.valid 86400] 1 = some 2 := by decide
example : Habit.calculate_streak 1 [0, 0] = 2 := by decide
example : Habit.calculate_streak 1 [0, 86400, 172800, 864000] = 1 := by decide
example :
    get_longest_streak_for_habit [TS.valid 0, TS.valid 86400, TS.valid 172800, TS.valid 864000] 1
      = some 3 := by decide
example : get_longest_streak [habitA, habitB] = some (some habitB, 2) := by decide
example : is_due_today 100 1 (some (TS.valid (97 * 86400))) = some true := by decide
example : is_due_today 100 7 (some (TS.valid (97 * 86400))) = some false := by decide

lemma parseDates_eq_validTicks {l : List TS} (h : TS.malformed ∉ l) :
    parseDates l = some (validTicks l) := by
  induction l with
  | nil => rfl
  | cons c t ih =>
    have hm : TS.malformed ∉ t := fun ht => h (List.mem_cons_of_mem _ ht)
    cases c with
    | missing => simpa [parseDates, validTicks, List.filterMap_cons] using ih hm
    | malformed => exact absurd (List.mem_cons_self _ _) h
    | valid d => simp [parseDates, validTicks, List.filterMap_cons, ih hm]

lemma parseDates_none_of_malformed {l : List TS} (h : TS.malformed ∈ l) :
    parseDates l = none := by
  induction l with
  | nil => simp at h
  | cons c t ih =>
    cases c with
    | malformed => rfl
    | missing =>
      have ht : TS.malformed ∈ t := by simpa using h
      simpa [parseDates] using ih ht
    | valid d =>
      have ht : TS.malformed ∈ t := by simpa using h
      simp [parseDates, ih ht]

lemma validTicks_filter (l : List TS) :
    validTicks (l.filter isValid) = validTicks l := by
  unfold validTicks
  induction l with
  | nil => rfl
  | cons c t ih =>
    cases c with
    | missing => simpa [List.filter_cons, isValid, List.filterMap_cons] using ih
    | malformed => simpa [List.filter_cons, isValid, List.filterMap_cons] using ih
    | valid d => simp [List.filter_cons, isValid, List.filterMap_cons, ih]

lemma malformed_not_mem_filter (l : List TS) : TS.malformed ∉ l.filter isValid := by
  intro h
  have := List.of_mem_filter h
  simp [isValid] at this

lemma parseAllDates_some {l : List TS} {ds : List Int} (h : parseAllDates l = some ds) :
    parseDates l = some ds ∧ ds.length = l.length := by
  induction l generalizing ds with
  | nil =>
    simp only [parseAllDates, Option.some.injEq] at h
    subst h
    exact ⟨rfl, rfl⟩
  | cons c t ih =>
    cases c with
    | missing => simp [parseAllDates] at h
    | malformed => simp [parseAllDates] at h
    | valid d =>
      simp only [parseAllDates] at h
      cases hpt : parseAllDates t with
      | none => rw [hpt] at h; cases h
      | some ds0 =>
        rw [hpt] at h
        simp only [Option.map_some', Option.some.injEq] at h
        obtain ⟨h1, h2⟩ := ih hpt
        subst h
        refine ⟨?_, by simpa using h2⟩
        simp [parseDates, h1]

lemma sortInts_perm (l : List Int) : List.Perm (sortInts l) l :=
  List.perm_insertionSort _ l

lemma sortInts_sorted (l : List Int) : List.Sorted (· ≤ ·) (sortInts l) :=
  List.sorted_insertionSort _ l

lemma sortInts_eq_of_perm {l₁ l₂ : List Int} (h : List.Perm l₁ l₂) :
    sortInts l₁ = sortInts l₂ :=
  List.eq_of_perm_of_sorted ((sortInts_perm l₁).trans (h.trans (sortInts_perm l₂).symm))
    (sortInts_sorted l₁) (sortInts_sorted l₂)

lemma sortInts_length (l : List Int) : (sortInts l).length = l.length :=
  (sortInts_perm l).length_eq

/-- C1: one step of the streak scan in `get_longest_streak_for_habit`.
With periodicity `P ≥ 1` and a running streak of at least 1, the pair
(previous date, current date) extends the running streak exactly when
`P = 1 ∧ diff = 1` or `P > 1 ∧ 1 ≤ diff ≤ P`; a whole-day difference of 0
never extends; on extension the streak increments by one and the maximum is
raised to at least the new streak; otherwise the streak resets to 1 and the
maximum is preserved unchanged. -/
theorem streak_reducer_extends_iff (periodicity : Int) (acc : StreakAcc) (curr : Int)
    (hP : 1 ≤ periodicity) (hs : 1 ≤ acc.streak) (hms : acc.streak ≤ acc.maxS) :
    ((streak_reducer periodicity acc curr).streak = acc.streak + 1 ↔
      ((periodicity = 1 ∧ daysDiff curr acc.prev = 1) ∨
       (periodicity > 1 ∧ 1 ≤ daysDiff curr acc.prev ∧ daysDiff curr acc.prev ≤ periodicity))) ∧
    (daysDiff curr acc.prev = 0 → (streak_reducer periodicity acc curr).streak = 1) ∧
    ((streak_reducer periodicity acc curr).streak = acc.streak + 1 →
      (streak_reducer periodicity acc curr).maxS = max acc.maxS (acc.streak + 1)) ∧
    ((streak_reducer periodicity acc curr).streak ≠ acc.streak + 1 →
      (streak_reducer periodicity acc curr).streak = 1 ∧
      (streak_reducer periodicity acc curr).maxS = acc.maxS) := by
  have hred : streak_reducer periodicity acc curr =
      if (periodicity = 1 ∧ daysDiff curr acc.prev = 1) ∨
         (periodicity > 1 ∧ 1 ≤ daysDiff curr acc.prev ∧ daysDiff curr acc.prev ≤ periodicity) then
        ⟨curr, acc.streak + 1, max acc.maxS (acc.streak + 1)⟩
      else ⟨curr, 1, max acc.maxS acc.streak⟩ := rfl
  rw [hred]
  split
  case isTrue h =>
    refine ⟨⟨fun _ => h, fun _ => rfl⟩, ?_, fun _ => rfl, fun hne => absurd rfl hne⟩
    intro h0
    exfalso
    rcases h with ⟨h1, h2⟩ | ⟨h1, h2, h3⟩ <;> omega
  case isFalse h =>
    refine ⟨⟨?_, fun hc => absurd hc h⟩, fun _ => rfl, ?_, fun _ => ⟨rfl, max_eq_left hms⟩⟩
    · intro heq
      have heq2 : (1 : Int) = acc.streak + 1 := heq
      exact absurd heq2 (by omega)
    · intro heq
      have heq2 : (1 : Int) = acc.streak + 1 := heq
      exact absurd heq2 (by omega)

/-- C1 witness: with periodicity 7 a two-day gap extends a streak of 3. -/
theorem streak_reducer_extends_iff_witness :
    (streak_reducer 7 ⟨0, 3, 3⟩ (2 * 86400)).streak = 3 + 1 := by
  have h := streak_reducer_extends_iff 7 ⟨0, 3, 3⟩ (2 * 86400) (by decide) (by decide) (by decide)
  exact h.1.mpr (Or.inr (by decide))

lemma scanl_cons_head {α β : Type} (f : β → α → β) (b : β) (l : List α) :
    ∃ t, List.scanl f b l = b :: t := by
  cases l with
  | nil => exact ⟨[], rfl⟩
  | cons a l => exact ⟨_, rfl⟩

lemma streak_reducer_cases (periodicity : Int) (acc : StreakAcc) (curr : Int) :
    streak_reducer periodicity acc curr =
        ⟨curr, acc.streak + 1, max acc.maxS (acc.streak + 1)⟩ ∨
      streak_reducer periodicity acc curr = ⟨curr, 1, max acc.maxS acc.streak⟩ := by
  unfold streak_reducer
  dsimp only
  split
  · exact Or.inl rfl
  · exact Or.inr rfl

lemma streak_reducer_step_inv (periodicity : Int) (acc : StreakAcc) (curr : Int)
    (h1 : 1 ≤ acc.streak) (h2 : acc.streak ≤ acc.maxS) :
    1 ≤ (streak_reducer periodicity acc curr).streak ∧
      (streak_reducer periodicity acc curr).streak ≤ (streak_reducer periodicity acc curr).maxS ∧
      (streak_reducer periodicity acc curr).maxS =
        max acc.maxS (streak_reducer periodicity acc curr).streak := by
  rcases streak_reducer_cases periodicity acc curr with hc | hc <;> rw [hc] <;> refine ⟨?_, ?_, ?_⟩
  · show (1 : Int) ≤ acc.streak + 1
    omega
  · show acc.streak + 1 ≤ max acc.maxS (acc.streak + 1)
    exact le_max_right _ _
  · rfl
  · show (1 : Int) ≤ 1
    omega
  · show (1 : Int) ≤ max acc.maxS acc.streak
    exact le_trans h1 (le_max_right _ _)
  · show max acc.maxS acc.streak = max acc.maxS 1
    rw [max_eq_left h2, max_eq_left (le_trans h1 h2)]

lemma foldl_reducer_inv (periodicity : Int) :
    ∀ (rest : List Int) (acc : StreakAcc), 1 ≤ acc.streak → acc.streak ≤ acc.maxS →
      1 ≤ (rest.foldl (streak_reducer periodicity) acc).streak ∧
        (rest.foldl (streak_reducer periodicity) acc).streak ≤
          (rest.foldl (streak_reducer periodicity) acc).maxS := by
  intro rest
  induction rest with
  | nil => intro acc h1 h2; exact ⟨h1, h2⟩
  | cons r t ih =>
    intro acc h1 h2
    obtain ⟨hp1, hp2, hp3⟩ := streak_reducer_step_inv periodicity acc r h1 h2
    rw [List.foldl_cons]
    exact ih _ hp1 hp2

lemma foldl_maxS_eq_scan (periodicity : Int) :
    ∀ (rest : List Int) (acc : StreakAcc), 1 ≤ acc.streak → acc.streak ≤ acc.maxS →
      (rest.foldl (streak_reducer periodicity) acc).maxS =
        ((List.scanl (streak_reducer periodicity) acc rest).map StreakAcc.streak).foldl
          max acc.maxS := by
  intro rest
  induction rest with
  | nil =>
    intro acc h1 h2
    show acc.maxS = max acc.maxS acc.streak
    rw [max_eq_left h2]
  | cons r t ih =>
    intro acc h1 h2
    obtain ⟨hp1, hp2, hp3⟩ := streak_reducer_step_inv periodicity acc r h1 h2
    obtain ⟨tl, htl⟩ := scanl_cons_head (streak_reducer periodicity) (streak_reducer periodicity acc r) t
    rw [List.foldl_cons, ih _ hp1 hp2]
    have hscan : List.scanl (streak_reducer periodicity) acc (r :: t) =
        acc :: List.scanl (streak_reducer periodicity) (streak_reducer periodicity acc r) t := rfl
    rw [hscan, htl]
    simp only [List.map_cons, List.foldl_cons]
    congr 1
    rw [max_eq_left hp2, max_eq_left h2]
    exact hp3

lemma engine_eq_foldl {completions : List TS} {periodicity : Int} {ds : List Int}
    {d0 : Int} {rest : List Int}
    (hp : parseDates completions = some ds) (hne : completions ≠ [])
    (hs : sortInts ds = d0 :: rest) :
    get_longest_streak_for_habit completions periodicity =
      some ((rest.foldl (streak_reducer periodicity) ⟨d0, 1, 1⟩).maxS) := by
  have hie : completions.isEmpty = false := by
    cases completions with
    | nil => exact absurd rfl hne
    | cons c t => rfl
  simp only [get_longest_streak_for_habit, hie, Bool.false_eq_true, if_false, hp, hs]
  cases rest with
  | nil => simp
  | cons r t =>
    rw [if_neg (by simp)]

/-- C2: for any non-empty completion collection whose dates parse, the value
returned by `get_longest_streak_for_habit` is the maximum over the whole
scan of the running streak (the `scanl` trace of `streak_reducer`), and in
particular it is never smaller than the running streak at the end of the
scan (the length of the last run). -/
theorem longest_streak_is_max_of_scan (completions : List TS) (periodicity : Int)
    (ds : List Int) (d0 : Int) (rest : List Int)
    (hp : parseDates completions = some ds) (hne : completions ≠ [])
    (hs : sortInts ds = d0 :: rest) :
    get_longest_streak_for_habit completions periodicity =
      some (((List.scanl (streak_reducer periodicity) ⟨d0, 1, 1⟩ rest).map
        StreakAcc.streak).foldl max 1) ∧
    (rest.foldl (streak_reducer periodicity) ⟨d0, 1, 1⟩).streak ≤
      ((List.scanl (streak_reducer periodicity) ⟨d0, 1, 1⟩ rest).map
        StreakAcc.streak).foldl max 1 := by
  have hscan := foldl_maxS_eq_scan periodicity rest ⟨d0, 1, 1⟩ le_rfl le_rfl
  have hinv := foldl_reducer_inv periodicity rest ⟨d0, 1, 1⟩ le_rfl le_rfl
  constructor
  · rw [engine_eq_foldl hp hne hs, hscan]
  · calc (rest.foldl (streak_reducer periodicity) ⟨d0, 1, 1⟩).streak
        ≤ (rest.foldl (streak_reducer periodicity) ⟨d0, 1, 1⟩).maxS := hinv.2
      _ = _ := hscan

/-- C2 witness: two completions one day apart under a daily habit give 2. -/
theorem longest_streak_is_max_of_scan_witness :
    get_longest_streak_for_habit [TS.valid 0, TS.valid 86400] 1 = some 2 := by
  have h := longest_streak_is_max_of_scan [TS.valid 0, TS.valid 86400] 1 [0, 86400] 0 [86400]
      (by decide) (by decide) (by decide)
  rw [h.1]
  decide

lemma list_isEmpty_false {α : Type} {l : List α} (h : l ≠ []) : l.isEmpty = false := by
  cases l with
  | nil => exact absurd rfl h
  | cons a t => rfl

lemma step_equiv (periodicity : Int) (hP : 1 ≤ periodicity) (a : StreakAcc)
    (b : Int × Int × Int) (r : Int)
    (h1 : a.prev = b.1) (h2 : a.streak = b.2.2) (h3 : a.maxS = max b.2.1 b.2.2)
    (h4 : 1 ≤ b.2.2) :
    (streak_reducer periodicity a r).prev = (all_streaks_step periodicity b r).1 ∧
      (streak_reducer periodicity a r).streak = (all_streaks_step periodicity b r).2.2 ∧
      (streak_reducer periodicity a r).maxS =
        max (all_streaks_step periodicity b r).2.1 (all_streaks_step periodicity b r).2.2 ∧
      1 ≤ (all_streaks_step periodicity b r).2.2 := by
  have hd : daysDiff r a.prev = daysDiff r b.1 := by rw [h1]
  have hcond : ((periodicity = 1 ∧ daysDiff r a.prev = 1) ∨
      (periodicity > 1 ∧ 1 ≤ daysDiff r a.prev ∧ daysDiff r a.prev ≤ periodicity)) ↔
      (1 ≤ daysDiff r b.1 ∧ daysDiff r b.1 ≤ periodicity) := by
    rw [hd]
    omega
  unfold streak_reducer all_streaks_step
  dsimp only
  by_cases hc : 1 ≤ daysDiff r b.1 ∧ daysDiff r b.1 ≤ periodicity
  · rw [if_pos (hcond.mpr hc), if_pos hc]
    refine ⟨rfl, ?_, ?_, ?_⟩
    · show a.streak + 1 = b.2.2 + 1
      omega
    · show max a.maxS (a.streak + 1) = max b.2.1 (b.2.2 + 1)
      rw [h3, h2, max_assoc, max_eq_right (by omega : b.2.2 ≤ b.2.2 + 1)]
    · show (1 : Int) ≤ b.2.2 + 1
      omega
  · rw [if_neg (fun h => hc (hcond.mp h)), if_neg hc]
    refine ⟨rfl, rfl, ?_, le_refl 1⟩
    show max a.maxS a.streak = max (max b.2.1 b.2.2) 1
    rw [h3, h2, max_assoc, max_self, max_eq_left (le_trans h4 (le_max_right _ _))]

lemma fold_equiv_aux (periodicity : Int) (hP : 1 ≤ periodicity) :
    ∀ (rest : List Int) (a : StreakAcc) (b : Int × Int × Int),
      a.prev = b.1 → a.streak = b.2.2 → a.maxS = max b.2.1 b.2.2 → 1 ≤ b.2.2 →
      (rest.foldl (streak_reducer periodicity) a).maxS =
        max (rest.foldl (all_streaks_step periodicity) b).2.1
          (rest.foldl (all_streaks_step periodicity) b).2.2 := by
  intro rest
  induction rest with
  | nil => intro a b h1 h2 h3 h4; exact h3
  | cons r t ih =>
    intro a b h1 h2 h3 h4
    obtain ⟨s1, s2, s3, s4⟩ := step_equiv periodicity hP a b r h1 h2 h3 h4
    rw [List.foldl_cons, List.foldl_cons]
    exact ih _ _ s1 s2 s3 s4

lemma calc_batch_eq_engine {l : List TS} {periodicity : Int} (hP : 1 ≤ periodicity) {s : Int}
    (h : GetAllStreaks.calculate_streak l periodicity = some s) :
    get_longest_streak_for_habit l periodicity = some s := by
  by_cases hl : l = []
  · subst hl
    simp only [GetAllStreaks.calculate_streak, List.isEmpty_nil, if_true,
      Option.some.injEq] at h
    subst h
    rfl
  · have hie : l.isEmpty = false := list_isEmpty_false hl
    unfold GetAllStreaks.calculate_streak at h
    rw [hie] at h
    simp only [Bool.false_eq_true, if_false] at h
    split at h
    next hpa => exact absurd h (by simp)
    next ds hpa =>
      obtain ⟨hpd, hlen⟩ := parseAllDates_some hpa
      split at h
      next hsort => exact absurd h (by simp)
      next d0 rest hsort =>
        simp only [Option.some.injEq] at h
        rw [engine_eq_foldl hpd hl hsort]
        have he := fold_equiv_aux periodicity hP rest ⟨d0, 1, 1⟩ (d0, 1, 1) rfl rfl
          (max_self 1).symm le_rfl
        rw [he, h]

/-- C3: whenever `get_all_streaks` succeeds, it pairs every habit's name
with exactly the streak value `get_longest_streak_for_habit` returns for
that habit's completions and periodicity — the batch computation and the
per-habit engine agree on every input where both are defined. -/
theorem get_all_streaks_matches_engine (habits : List HabitRec) (out : List (String × Int))
    (hP : ∀ h ∈ habits, 1 ≤ h.periodicity)
    (hout : get_all_streaks habits = some out) :
    List.Forall₂ (fun (h : HabitRec) (p : String × Int) =>
      p.1 = h.name ∧ get_longest_streak_for_habit h.completions h.periodicity = some p.2)
      habits out := by
  induction habits generalizing out with
  | nil =>
    simp only [get_all_streaks, Option.some.injEq] at hout
    subst hout
    exact List.Forall₂.nil
  | cons h t ih =>
    cases hcs : GetAllStreaks.calculate_streak h.completions h.periodicity with
    | none =>
      simp only [get_all_streaks, hcs] at hout
      exact absurd hout (by simp)
    | some s =>
      cases hts : get_all_streaks t with
      | none =>
        simp only [get_all_streaks, hcs, hts] at hout
        exact absurd hout (by simp)
      | some l =>
        simp only [get_all_streaks, hcs, hts, Option.some.injEq] at hout
        subst hout
        refine List.Forall₂.cons ⟨rfl, ?_⟩
          (ih l (fun x hx => hP x (List.mem_cons_of_mem _ hx)) hts)
        exact calc_batch_eq_engine (hP h (List.mem_cons_self _ _)) hcs

/-- C3 witness: one habit with two completions a day apart, batch result
`("B", 2)` matching the engine. -/
theorem get_all_streaks_matches_engine_witness :
    List.Forall₂ (fun (h : HabitRec) (p : String × Int) =>
      p.1 = h.name ∧ get_longest_streak_for_habit h.completions h.periodicity = some p.2)
      [habitB] [("B", 2)] :=
  get_all_streaks_matches_engine [habitB] [("B", 2)] (by decide) (by decide)

/-- C4 counterexample: one malformed timestamp makes the whole computation
return 0, discarding the two valid completions whose streak is 2; and a
non-empty collection whose timestamps are all missing raises (`IndexError`)
instead of being handled silently. -/
theorem silent_drop_counterexample :
    get_longest_streak_for_habit [TS.valid 0, TS.valid 86400, TS.malformed] 1 = some 0 ∧
      get_longest_streak_for_habit [TS.valid 0, TS.valid 86400] 1 = some 2 ∧
      get_longest_streak_for_habit [TS.missing] 1 = none := by decide

/-- C4 amended: only completions with a missing (`None`) timestamp are
dropped silently — when no timestamp is malformed and at least one is valid,
the result equals the streak over the valid completions alone. -/
theorem missing_dropped_silently (l : List TS) (periodicity : Int)
    (hm : TS.malformed ∉ l) (hv : validTicks l ≠ []) :
    get_longest_streak_for_habit l periodicity =
      get_longest_streak_for_habit (l.filter isValid) periodicity := by
  have hne : l ≠ [] := by rintro rfl; exact hv rfl
  have hne2 : l.filter isValid ≠ [] := by
    intro he
    apply hv
    rw [← validTicks_filter l, he]
    rfl
  have hpd1 := parseDates_eq_validTicks hm
  have hpd2 := parseDates_eq_validTicks (malformed_not_mem_filter l)
  rw [validTicks_filter] at hpd2
  simp only [get_longest_streak_for_habit, list_isEmpty_false hne, list_isEmpty_false hne2,
    Bool.false_eq_true, if_false, hpd1, hpd2]

/-- C4 witness: a `None` entry alongside two valid completions is dropped. -/
theorem missing_dropped_silently_witness :
    get_longest_streak_for_habit [TS.missing, TS.valid 0, TS.valid 86400] 1 =
      get_longest_streak_for_habit ([TS.missing, TS.valid 0, TS.valid 86400].filter isValid) 1 :=
  missing_dropped_silently _ 1 (by decide) (by decide)

/-- C5 counterexample: a collection containing exactly one valid completion
(together with a malformed one) returns 0, not 1. -/
theorem single_valid_counterexample :
    validTicks [TS.valid 0, TS.malformed] = [0] ∧
      get_longest_streak_for_habit [TS.valid 0, TS.malformed] 1 = some 0 := by decide

/-- C5 amended: for every periodicity the empty collection gives 0, and any
collection with exactly one valid completion and no malformed timestamp
gives 1. -/
theorem empty_and_single_valid (periodicity : Int) :
    get_longest_streak_for_habit [] periodicity = some 0 ∧
      ∀ (l : List TS) (t : Int), TS.malformed ∉ l → validTicks l = [t] →
        get_longest_streak_for_habit l periodicity = some 1 := by
  refine ⟨rfl, ?_⟩
  intro l t hm hv
  have hne : l ≠ [] := by
    rintro rfl
    simp [validTicks] at hv
  have hpd := parseDates_eq_validTicks hm
  rw [hv] at hpd
  simp only [get_longest_streak_for_habit, list_isEmpty_false hne, Bool.false_eq_true,
    if_false, hpd]
  rfl

/-- C5 witness: one valid completion next to a missing one gives streak 1. -/
theorem empty_and_single_valid_witness :
    get_longest_streak_for_habit [TS.missing, TS.valid 5] 3 = some 1 := by
  have h := empty_and_single_valid 3
  exact h.2 [TS.missing, TS.valid 5] 5 (by decide) (by decide)

/-- C8: `get_longest_streak_for_habit` is invariant under permutation of
the input collection — shuffling the completions does not change the
result (the computation sorts an internal copy; in this pure embedding the
input is never mutated). -/
theorem engine_perm_invariant (l1 l2 : List TS) (periodicity : Int)
    (h : List.Perm l1 l2) :
    get_longest_streak_for_habit l1 periodicity =
      get_longest_streak_for_habit l2 periodicity := by
  by_cases hn : l1 = []
  · subst hn
    rw [h.symm.eq_nil]
  · have hn2 : l2 ≠ [] := fun he => hn ((he ▸ h).eq_nil)
    by_cases hm : TS.malformed ∈ l1
    · have hm2 : TS.malformed ∈ l2 := h.mem_iff.mp hm
      simp only [get_longest_streak_for_habit, list_isEmpty_false hn, list_isEmpty_false hn2,
        Bool.false_eq_true, if_false, parseDates_none_of_malformed hm,
        parseDates_none_of_malformed hm2]
    · have hm2 : TS.malformed ∉ l2 := fun x => hm (h.mem_iff.mpr x)
      have hvt : List.Perm (validTicks l1) (validTicks l2) := h.filterMap _
      have hsort : sortInts (validTicks l1) = sortInts (validTicks l2) :=
        sortInts_eq_of_perm hvt
      simp only [get_longest_streak_for_habit, list_isEmpty_false hn, list_isEmpty_false hn2,
        Bool.false_eq_true, if_false, parseDates_eq_validTicks hm,
        parseDates_eq_validTicks hm2, hsort]

/-- C8 witness: swapping two completions leaves the streak unchanged. -/
theorem engine_perm_invariant_witness :
    get_longest_streak_for_habit [TS.valid 86400, TS.valid 0] 1 =
      get_longest_streak_for_habit [TS.valid 0, TS.valid 86400] 1 :=
  engine_perm_invariant _ _ 1 (List.Perm.swap _ _ _)

lemma max_step_le (x z : HabitRec × Int) :
    x.2 ≤ (max_step x z).2 ∧ z.2 ≤ (max_step x z).2 := by
  unfold max_step
  split
  next h => exact ⟨by omega, le_refl _⟩
  next h => exact ⟨le_refl _, by omega⟩

lemma max_by_mem (x : HabitRec × Int) (xs : List (HabitRec × Int)) :
    max_by_streak x xs ∈ x :: xs := by
  unfold max_by_streak
  induction xs generalizing x with
  | nil => exact List.mem_cons_self _ _
  | cons z zs ih =>
    rw [List.foldl_cons]
    rcases List.mem_cons.mp (ih (max_step x z)) with h | h
    · rw [h]
      unfold max_step
      split
      · exact List.mem_cons_of_mem _ (List.mem_cons_self _ _)
      · exact List.mem_cons_self _ _
    · exact List.mem_cons_of_mem _ (List.mem_cons_of_mem _ h)

lemma max_by_ge (x : HabitRec × Int) (xs : List (HabitRec × Int)) :
    ∀ y ∈ x :: xs, y.2 ≤ (max_by_streak x xs).2 := by
  unfold max_by_streak
  induction xs generalizing x with
  | nil =>
    intro y hy
    rcases List.mem_cons.mp hy with rfl | h
    · exact le_refl _
    · simp at h
  | cons z zs ih =>
    intro y hy
    rw [List.foldl_cons]
    obtain ⟨hx, hz⟩ := max_step_le x z
    have hhead := ih (max_step x z) (max_step x z) (List.mem_cons_self _ _)
    rcases List.mem_cons.mp hy with rfl | hy2
    · exact le_trans hx hhead
    rcases List.mem_cons.mp hy2 with rfl | hy3
    · exact le_trans hz hhead
    · exact ih (max_step x z) y (List.mem_cons_of_mem _ hy3)

lemma max_by_first (x : HabitRec × Int) (xs : List (HabitRec × Int)) :
    ∃ l1 l2, x :: xs = l1 ++ max_by_streak x xs :: l2 ∧
      ∀ y ∈ l1, y.2 < (max_by_streak x xs).2 := by
  unfold max_by_streak
  induction xs generalizing x with
  | nil => exact ⟨[], [], rfl, by simp⟩
  | cons z zs ih =>
    rw [List.foldl_cons]
    obtain ⟨l1, l2, hsplit, hlt⟩ := ih (max_step x z)
    by_cases hzx : z.2 > x.2
    · have hm : max_step x z = z := by unfold max_step; rw [if_pos hzx]
      have hge : (max_step x z).2 ≤ (List.foldl max_step (max_step x z) zs).2 := by
        have h0 := max_by_ge (max_step x z) zs (max_step x z) (List.mem_cons_self _ _)
        unfold max_by_streak at h0
        exact h0
      refine ⟨x :: l1, l2, ?_, ?_⟩
      · rw [show x :: z :: zs = x :: (max_step x z :: zs) by rw [hm], hsplit]
        rfl
      · intro w hw
        rcases List.mem_cons.mp hw with heq | hw2
        · rw [heq]
          calc x.2 < z.2 := hzx
            _ = (max_step x z).2 := by rw [hm]
            _ ≤ _ := hge
        · exact hlt w hw2
    · have hm : max_step x z = x := by unfold max_step; rw [if_neg hzx]
      rw [hm] at hsplit hlt ⊢
      cases l1 with
      | nil =>
        simp only [List.nil_append, List.cons.injEq] at hsplit
        obtain ⟨h1, h2⟩ := hsplit
        refine ⟨[], z :: zs, ?_, by simp⟩
        rw [List.nil_append, ← h1]
      | cons w l1t =>
        simp only [List.cons_append, List.cons.injEq] at hsplit
        obtain ⟨h1, h2⟩ := hsplit
        have hwx := hlt w (List.mem_cons_self _ _)
        rw [← h1] at hwx
        refine ⟨x :: z :: l1t, l2, ?_, ?_⟩
        · rw [show (x :: z :: l1t) ++ List.foldl max_step x zs :: l2 =
            x :: z :: (l1t ++ List.foldl max_step x zs :: l2) from rfl, ← h2]
        · intro w2 hw2
          rcases List.mem_cons.mp hw2 with heq | hw3
          · rw [heq]
            exact hwx
          rcases List.mem_cons.mp hw3 with heq | hw4
          · rw [heq]
            omega
          · exact hlt w2 (List.mem_cons_of_mem _ hw4)

lemma streak_pairs_sound :
    ∀ {hs : List HabitRec} {pl : List (HabitRec × Int)}, streak_pairs hs = some pl →
      pl.map Prod.fst = hs ∧
        ∀ p ∈ pl, get_longest_streak_for_habit p.1.completions p.1.periodicity = some p.2 := by
  intro hs
  induction hs with
  | nil =>
    intro pl h
    simp only [streak_pairs, Option.some.injEq] at h
    subst h
    exact ⟨rfl, by simp⟩
  | cons a as ih =>
    intro pl h
    cases heng : get_longest_streak_for_habit a.completions a.periodicity with
    | none =>
      simp only [streak_pairs, heng] at h
      exact absurd h (by simp)
    | some s =>
      cases hsp : streak_pairs as with
      | none =>
        simp only [streak_pairs, heng, hsp] at h
        exact absurd h (by simp)
      | some l =>
        simp only [streak_pairs, heng, hsp, Option.some.injEq] at h
        subst h
        obtain ⟨h1, h2⟩ := ih hsp
        refine ⟨by simp [h1], ?_⟩
        intro p hp
        rcases List.mem_cons.mp hp with rfl | hp2
        · exact heng
        · exact h2 p hp2

/-- C6: `get_longest_streak` returns the sentinel `(None, 0)` exactly for a
user with no habits; otherwise it returns some habit of the list together
with its own engine streak, that streak is maximal among all habits, and
the winning habit is the first one attaining the maximum (every habit
before it in retrieval order has a strictly smaller streak). -/
theorem get_longest_streak_spec (habits : List HabitRec) (res : Option HabitRec × Int)
    (hr : get_longest_streak habits = some res) :
    (habits = [] → res = (none, 0)) ∧
      (habits ≠ [] → ∃ h0, res.1 = some h0 ∧ h0 ∈ habits ∧
        get_longest_streak_for_habit h0.completions h0.periodicity = some res.2 ∧
        (∀ h ∈ habits, ∀ s,
          get_longest_streak_for_habit h.completions h.periodicity = some s → s ≤ res.2) ∧
        ∃ l1 l2, habits = l1 ++ h0 :: l2 ∧
          ∀ h ∈ l1, ∀ s,
            get_longest_streak_for_habit h.completions h.periodicity = some s → s < res.2) := by
  cases habits with
  | nil =>
    refine ⟨fun _ => ?_, fun hne => absurd rfl hne⟩
    simp only [get_longest_streak, Option.some.injEq] at hr
    exact hr.symm
  | cons a as =>
    refine ⟨fun he => List.noConfusion he, fun _ => ?_⟩
    cases heng : get_longest_streak_for_habit a.completions a.periodicity with
    | none =>
      simp only [get_longest_streak, heng] at hr
      exact absurd hr (by simp)
    | some s =>
      cases hsp : streak_pairs as with
      | none =>
        simp only [get_longest_streak, heng, hsp] at hr
        exact absurd hr (by simp)
      | some l =>
        simp only [get_longest_streak, heng, hsp, Option.some.injEq] at hr
        subst hr
        have hfull : streak_pairs (a :: as) = some ((a, s) :: l) := by
          simp only [streak_pairs, heng, hsp]
        obtain ⟨hmap, hsnd⟩ := streak_pairs_sound hfull
        have hmem : max_by_streak (a, s) l ∈ (a, s) :: l := max_by_mem (a, s) l
        have hge := max_by_ge (a, s) l
        obtain ⟨l1, l2, hsplit, hlt⟩ := max_by_first (a, s) l
        refine ⟨(max_by_streak (a, s) l).1, rfl, ?_, hsnd _ hmem, ?_, ?_⟩
        · have hmm : (max_by_streak (a, s) l).1 ∈ ((a, s) :: l).map Prod.fst :=
            List.mem_map_of_mem _ hmem
          rwa [hmap] at hmm
        · intro h hh s2 hs2
          rw [← hmap] at hh
          obtain ⟨p, hp, hp1⟩ := List.mem_map.mp hh
          have he2 := hsnd p hp
          rw [hp1, hs2, Option.some.injEq] at he2
          rw [he2]
          exact hge p hp
        · refine ⟨l1.map Prod.fst, l2.map Prod.fst, ?_, ?_⟩
          · rw [← hmap, hsplit]
            simp
          · intro h hh s2 hs2
            obtain ⟨p, hp, hp1⟩ := List.mem_map.mp hh
            have hpmem : p ∈ (a, s) :: l := by
              rw [hsplit]
              exact List.mem_append_left _ hp
            have he2 := hsnd p hpmem
            rw [hp1, hs2, Option.some.injEq] at he2
            rw [he2]
            exact hlt p hp

/-- C6 witness: of two habits with streaks 1 and 2 the second wins, and its
streak is its own engine value. -/
theorem get_longest_streak_spec_witness :
    get_longest_streak_for_habit habitB.completions habitB.periodicity = some 2 := by
  have h := get_longest_streak_spec [habitA, habitB] (some habitB, 2) (by decide)
  obtain ⟨h0, he, hmem, heng, hrest⟩ := h.2 (by decide)
  have hb : habitB = h0 := Option.some.inj he
  rw [hb]
  exact heng

lemma streak_pairs_zeros (as : List HabitRec)
    (h : ∀ x ∈ as, x.completions = ([] : List TS)) :
    streak_pairs as = some (as.map (fun x => (x, (0 : Int)))) := by
  induction as with
  | nil => rfl
  | cons a t ih =>
    have heng : get_longest_streak_for_habit a.completions a.periodicity = some 0 := by
      rw [h a (List.mem_cons_self _ _)]
      rfl
    simp only [streak_pairs, heng, ih (fun x hx => h x (List.mem_cons_of_mem _ hx)),
      List.map_cons]

lemma max_by_zeros (a : HabitRec) (t : List HabitRec) :
    max_by_streak (a, 0) (t.map (fun x => (x, (0 : Int)))) = (a, 0) := by
  unfold max_by_streak
  induction t with
  | nil => rfl
  | cons b bs ih =>
    rw [List.map_cons, List.foldl_cons]
    have hstep : max_step (a, 0) (b, 0) = (a, 0) := by
      unfold max_step
      rw [if_neg (by simp)]
    rw [hstep]
    exact ih

/-- C9: a user owning at least one habit, none of which has any completion,
gets back the first habit paired with streak 0 — a real habit record, not
the `(None, 0)` sentinel. -/
theorem no_completions_first_habit (a : HabitRec) (as : List HabitRec)
    (h : ∀ x ∈ a :: as, x.completions = ([] : List TS)) :
    get_longest_streak (a :: as) = some (some a, 0) := by
  have heng : get_longest_streak_for_habit a.completions a.periodicity = some 0 := by
    rw [h a (List.mem_cons_self _ _)]
    rfl
  have hsp := streak_pairs_zeros as (fun x hx => h x (List.mem_cons_of_mem _ hx))
  simp only [get_longest_streak, heng, hsp]
  rw [max_by_zeros]

/-- C9 witness: two never-completed habits yield the first one and 0. -/
theorem no_completions_first_habit_witness :
    get_longest_streak [⟨"A", 1, []⟩, ⟨"B", 7, []⟩] =
      some (some (⟨"A", 1, []⟩ : HabitRec), 0) :=
  no_completions_first_habit _ _ (by decide)

/-- C7: for a habit whose stored last completion is absent or valid, the
due-today predicate succeeds and holds exactly when the habit was never
completed, or the number of whole days between today and the most recent
completion date is at least the habit's periodicity. -/
theorem is_due_today_spec (today periodicity : Int) (lc : Option TS)
    (hv : lc = none ∨ ∃ d, lc = some (TS.valid d)) :
    ∃ b, is_due_today today periodicity lc = some b ∧
      (b = true ↔ (lc = none ∨
        ∃ d, lc = some (TS.valid d) ∧ periodicity ≤ today - ticksToDay d)) := by
  rcases hv with rfl | ⟨d, rfl⟩
  · exact ⟨true, rfl, by simp⟩
  · refine ⟨decide (periodicity ≤ today - ticksToDay d), rfl, ?_⟩
    constructor
    · intro hb
      exact Or.inr ⟨d, rfl, of_decide_eq_true hb⟩
    · intro hor
      rcases hor with hnone | ⟨d2, hd2, hle⟩
      · exact absurd hnone (by simp)
      · have hdd : TS.valid d = TS.valid d2 := Option.some.inj hd2
        injection hdd with hd
        subst hd
        exact decide_eq_true hle

/-- C7 witness: a daily habit last completed 3 days ago is due today. -/
theorem is_due_today_spec_witness :
    is_due_today 100 1 (some (TS.valid (97 * 86400))) = some true := by
  obtain ⟨b, hb, hiff⟩ := is_due_today_spec 100 1 (some (TS.valid (97 * 86400)))
    (Or.inr ⟨97 * 86400, rfl⟩)
  have hbt : b = true := hiff.mpr (Or.inr ⟨97 * 86400, rfl, by decide⟩)
  rw [hb, hbt]

/-- One loop iteration of `Habit.calculate_streak`: accumulator is
(previous date, running streak). -/
def habit_step (periodicity : Int) (acc : Int × Int) (d : Int) : Int × Int :=
  if daysDiff d acc.1 ≤ periodicity then (d, acc.2 + 1) else (d, 1)

lemma foldl_habit_step_spec (periodicity : Int) :
    ∀ (rest : List Int) (d0 : Int),
      ∃ tl, (d0 :: rest).reverse = (rest.foldl (habit_step periodicity) (d0, 1)).1 :: tl ∧
        (rest.foldl (habit_step periodicity) (d0, 1)).2 =
          trailingRun periodicity (d0 :: rest).reverse := by
  intro rest
  induction rest using List.reverseRecOn with
  | nil => intro d0; exact ⟨[], by simp, rfl⟩
  | append_singleton t d ih =>
    intro d0
    obtain ⟨tl0, hih1, hih2⟩ := ih d0
    have hfold : (t ++ [d]).foldl (habit_step periodicity) (d0, 1) =
        habit_step periodicity (t.foldl (habit_step periodicity) (d0, 1)) d := by
      rw [List.foldl_append, List.foldl_cons, List.foldl_nil]
    have hrev : (d0 :: (t ++ [d])).reverse = d :: (d0 :: t).reverse := by simp
    have h1 : (habit_step periodicity (t.foldl (habit_step periodicity) (d0, 1)) d).1 = d := by
      unfold habit_step
      split <;> rfl
    refine ⟨(d0 :: t).reverse, ?_, ?_⟩
    · rw [hrev, hfold, h1]
    · rw [hfold, hrev, hih1]
      rw [show trailingRun periodicity
          (d :: (t.foldl (habit_step periodicity) (d0, 1)).1 :: tl0) =
          if daysDiff d (t.foldl (habit_step periodicity) (d0, 1)).1 ≤ periodicity then
            1 + trailingRun periodicity ((t.foldl (habit_step periodicity) (d0, 1)).1 :: tl0)
          else 1 from rfl]
      rw [← hih1, ← hih2]
      rw [show habit_step periodicity (t.foldl (habit_step periodicity) (d0, 1)) d =
          if daysDiff d (t.foldl (habit_step periodicity) (d0, 1)).1 ≤ periodicity then
            (d, (t.foldl (habit_step periodicity) (d0, 1)).2 + 1)
          else (d, 1) from rfl]
      split
      next h =>
        show (t.foldl (habit_step periodicity) (d0, 1)).2 + 1 = _
        omega
      next h => rfl

/-- C10: `Habit.calculate_streak` returns the length of the trailing run of
the sorted completions under the rule `diff ≤ periodicity` (so a 0-day gap
extends the run), not the maximum run; concretely, two same-day completions
give it 2 where the engine gives 1, and a history whose longest run is not
its last gives it 1 where the engine gives 3. -/
theorem habit_calculate_streak_is_trailing_run :
    (∀ (periodicity : Int) (completions : List Int),
      Habit.calculate_streak periodicity completions =
        trailingRun periodicity (sortInts completions).reverse) ∧
      Habit.calculate_streak 1 [0, 0] = 2 ∧
      get_longest_streak_for_habit [TS.valid 0, TS.valid 0] 1 = some 1 ∧
      Habit.calculate_streak 1 [0, 86400, 172800, 864000] = 1 ∧
      get_longest_streak_for_habit
        [TS.valid 0, TS.valid 86400, TS.valid 172800, TS.valid 864000] 1 = some 3 := by
  refine ⟨?_, by decide, by decide, by decide, by decide⟩
  intro periodicity completions
  unfold Habit.calculate_streak
  cases hs : sortInts completions with
  | nil => rfl
  | cons d0 rest =>
    obtain ⟨tl, h1, h2⟩ := foldl_habit_step_spec periodicity rest d0
    exact h2
